import Mathlib

/-!
Verification development for the Paddle excerpt consisting of
`python/paddle/autograd/functional.py` (the `jacobian` helper and its two
private helpers `_check_tensors` and `_stack_tensor_or_return_none`) and
`python/paddle/fluid/tests/unittests/ir/inference/test_trt_convert_leaky_relu.py`
(the leaky_relu TensorRT conversion test enumeration).

The differentiation engine (`paddle.grad`) and the tensor-library primitives
(`paddle.reshape`, `paddle.stack`, `paddle.matmul`) are part of the larger
repository but are not included in the excerpt; they are modelled from the
spec where indicated.
-/

/-- A tensor value: a shape (list of dimension extents) together with the
flat row-major data buffer of scalars.  Integers stand in for the float
values: none of the verified properties depend on rounding, and the
documented example is integer-valued. -/
structure Tensor where
  shape : List Nat
  data : List ℤ
deriving DecidableEq, Repr

/-- A tensor is well formed when its buffer holds exactly one scalar per
point of the shape. -/
def Tensor.wf (t : Tensor) : Prop := t.data.length = t.shape.prod

/-- Number of scalar elements of a tensor, as determined by its shape. -/
def Tensor.numel (t : Tensor) : Nat := t.shape.prod

/-- The default tensor used with `List.getD`. -/
def dTensor : Tensor := ⟨[], []⟩

/-- Modelled from the spec: `paddle.reshape(t, shape=[-1])` of the tensor
library, the 1-D flattening view: same data, shape `[numel]`. -/
def reshapeFlat (t : Tensor) : Tensor := ⟨[t.data.length], t.data⟩

/-- Python `len` of a tensor: the extent of its leading dimension. -/
def pyLen (t : Tensor) : Nat := t.shape.headD 0

/-- A Python value that may appear inside the `inputs`/`outputs` collections:
either a `paddle.Tensor` or some non-tensor object. -/
inductive PyVal where
  | tensor : Tensor → PyVal
  | other : PyVal
deriving DecidableEq, Repr

/-- The argument shapes `_check_tensors` distinguishes: `None`, a bare
(non-list) value, or a list/tuple of values. -/
inductive InOutArg where
  | pynone : InOutArg
  | val : PyVal → InOutArg
  | list : List PyVal → InOutArg
deriving DecidableEq, Repr

/-- Errors: Python assertions raised locally by the excerpt code, versus
errors raised inside the external engine / tensor library. -/
inductive PErr where
  | assertion : String → PErr
  | engine : String → PErr
deriving DecidableEq, Repr

/-- Monadic map over a list in the `Except PErr` monad, aborting at the
first error; this is the evaluation order of a Python `for` loop whose body
may raise. -/
def mapE {α β : Type} (f : α → Except PErr β) : List α → Except PErr (List β)
  | [] => .ok []
  | a :: l =>
    match f a with
    | .error e => .error e
    | .ok b =>
      match mapE f l with
      | .error e => .error e
      | .ok bs => .ok (b :: bs)

/-- One element check of `_check_tensors`: the element must be a
`paddle.Tensor`. -/
def checkElem (name : String) (v : PyVal) : Except PErr Tensor :=
  match v with
  | .tensor t => .ok t
  | .other => .error (.assertion ("Elements of " ++ name ++ " must be paddle.Tensor"))

/-- Embedding of `_check_tensors(in_out_list, name)`: reject `None`; for a
list/tuple reject emptiness and non-tensor elements; for a bare value require
a tensor and wrap it in a singleton list. -/
def _check_tensors (arg : InOutArg) (name : String) : Except PErr (List Tensor) :=
  match arg with
  | .pynone => .error (.assertion (name ++ " should not be None"))
  | .list l =>
    if l.length > 0 then mapE (checkElem name) l
    else .error (.assertion (name ++ " connot be empyt"))
  | .val (.tensor t) => .ok [t]
  | .val .other => .error (.assertion (name ++ " must be Tensor or list of Tensor"))

/-- Collect a list of optional tensors into `some` list of tensors exactly
when none of them is the Python `None`. -/
def allTensors : List (Option Tensor) → Option (List Tensor)
  | [] => some []
  | none :: _ => none
  | some t :: l => (allTensors l).map (t :: ·)

/-- Modelled from the spec: `paddle.stack(list, axis=0)` of the tensor
library: every element must be a tensor and all shapes must agree; the
result prepends the list length to the common shape and concatenates the
buffers.  Violations are tensor-library (engine-side) errors. -/
def paddleStack (l : List (Option Tensor)) : Except PErr Tensor :=
  match allTensors l with
  | none => .error (.engine "stack expects every element to be a Tensor")
  | some ts =>
    match ts with
    | [] => .error (.engine "stack expects a non-empty tensor list")
    | t0 :: _ =>
      if ∀ t ∈ ts, t.shape = t0.shape then
        .ok ⟨ts.length :: t0.shape, (ts.map Tensor.data).flatten⟩
      else .error (.engine "stack expects tensors of equal shape")

/-- Embedding of `_stack_tensor_or_return_none(origin_list)`: assert the
list is non-empty, then stack it if its first element is a tensor and return
`None` otherwise. -/
def _stack_tensor_or_return_none (origin_list : List (Option Tensor)) :
    Except PErr (Option Tensor) :=
  match origin_list with
  | [] => .error (.assertion "Can not stack an empty list")
  | some _ :: _ => (paddleStack origin_list).map some
  | none :: _ => .ok none

/-- Modelled from the spec: the external differentiation engine
(`paddle.grad`, not part of the excerpt).  `reach i j` says whether input
`j` participates in computing output `i` (spec: a gradient row is "either a
tensor (same shape as that input) or an explicit unreachable marker when the
input does not participate in computing that output"); `dval i k j idx` is
the scalar value of the gradient of scalar `k` of flattened output `i` with
respect to flat element `idx` of input `j`. -/
structure GradEngine where
  reach : Nat → Nat → Bool
  dval : Nat → Nat → Nat → Nat → ℤ

/-- The constant error message of the modelled engine for an unreachable
input when unreachability is disallowed. -/
def unreachableMsg : String :=
  "a Tensor of inputs is unreachable in the graph and allow_unused is False"

/-- Modelled from the spec: the engine walking the input list (input index
offset `j0`), producing per input either the gradient tensor of the same
shape as that input, or `None` when the input is unreachable and
unreachability is allowed, or an engine error otherwise. -/
def engineGradAux (E : GradEngine) (i k : Nat) (allow_unused : Bool) :
    Nat → List Tensor → Except PErr (List (Option Tensor))
  | _, [] => .ok []
  | j, t :: ts =>
    match (if E.reach i j then
             .ok (some ⟨t.shape, (List.range t.shape.prod).map (E.dval i k j)⟩)
           else if allow_unused then .ok none
           else .error (.engine unreachableMsg) : Except PErr (Option Tensor)) with
    | .error e => .error e
    | .ok g =>
      match engineGradAux E i k allow_unused (j + 1) ts with
      | .error e => .error e
      | .ok rest => .ok (g :: rest)

/-- Modelled from the spec: one invocation
`paddle.grad(flat_output[k], inputs, ...)` of the differentiation engine,
for scalar `k` of flattened output `i`. -/
def engineGrad (E : GradEngine) (ins : List Tensor) (i k : Nat)
    (allow_unused : Bool) : Except PErr (List (Option Tensor)) :=
  engineGradAux E i k allow_unused 0 ins

/-- Record of one engine invocation made by `jacobian`: which output scalar
was differentiated, the tensors it was differentiated with respect to, and
the flags passed through. -/
structure GradCall where
  outIdx : Nat
  scalarIdx : Nat
  wrt : List Tensor
  create_graph : Bool
  retain_graph : Bool
  allow_unused : Bool
deriving DecidableEq, Repr

/-- One iteration of the `for k in range(len(flat_output))` loop body of
`jacobian`: call the engine on scalar `k` of output `i` with
`create_graph=create_graph, retain_graph=True, allow_unused=allow_unused`,
then flatten each returned gradient (`paddle.reshape(row_k[j], [-1])` when
it is a tensor, `None` otherwise).  Also records the invocation. -/
def gradStep (E : GradEngine) (ins : List Tensor) (i k : Nat)
    (create_graph allow_unused : Bool) :
    Except PErr (List (Option Tensor) × GradCall) :=
  match engineGrad E ins i k allow_unused with
  | .error e => .error e
  | .ok row =>
    .ok (row.map (Option.map reshapeFlat),
         ⟨i, k, ins, create_graph, true, allow_unused⟩)

/-- Processing of one flattened output `flat` (index `i`) inside `jacobian`:
run the engine once per scalar entry, regroup the rows per input `j`
(`jac_i[j]` in the source), and stack each group with
`_stack_tensor_or_return_none`.  Returns the row of Jacobian blocks for
output `i` together with the engine invocations made. -/
def jacOutput (E : GradEngine) (ins : List Tensor)
    (create_graph allow_unused : Bool) (i : Nat) (flat : Tensor) :
    Except PErr (List (Option Tensor) × List GradCall) :=
  match mapE (fun k => gradStep E ins i k create_graph allow_unused)
      (List.range (pyLen flat)) with
  | .error e => .error e
  | .ok pairs =>
    match mapE (fun j => _stack_tensor_or_return_none
        ((pairs.map Prod.fst).map (fun r => r.getD j none)))
        (List.range ins.length) with
    | .error e => .error e
    | .ok blocks => .ok (blocks, pairs.map Prod.snd)

/-- The `for i, flat_output in enumerate(flat_outputs)` loop of `jacobian`,
with `i0` the index of the first remaining flattened output. -/
def coreAux (E : GradEngine) (ins : List Tensor)
    (create_graph allow_unused : Bool) :
    Nat → List Tensor → Except PErr (List (List (Option Tensor) × List GradCall))
  | _, [] => .ok []
  | i0, f :: fs =>
    match jacOutput E ins create_graph allow_unused i0 f with
    | .error e => .error e
    | .ok bc =>
      match coreAux E ins create_graph allow_unused (i0 + 1) fs with
      | .error e => .error e
      | .ok rest => .ok (bc :: rest)

/-- The block-assembly phase of `jacobian`: flatten every output and build
the full `[output][input]` grid of Jacobian blocks (the `jacobian` tuple of
tuples in the source, before result collapsing), together with the ordered
list of engine invocations made. -/
def jacobianCore (E : GradEngine) (ins outs : List Tensor)
    (create_graph allow_unused : Bool) :
    Except PErr (List (List (Option Tensor)) × List GradCall) :=
  match coreAux E ins create_graph allow_unused 0 (outs.map reshapeFlat) with
  | .error e => .error e
  | .ok res => .ok (res.map Prod.fst, (res.map Prod.snd).flatten)

/-- The possible result shapes of `jacobian` after collapsing: a single
(optional) matrix, a flat ordered sequence of optional matrices, or the
nested `[output][input]` grid. -/
inductive JacResult where
  | one : Option Tensor → JacResult
  | seq : List (Option Tensor) → JacResult
  | nested : List (List (Option Tensor)) → JacResult
deriving DecidableEq, Repr

/-- The result collapsing of `jacobian`: the `if fin_size == 1 and
fout_size == 1 ... elif ... else` chain at the end of the source. -/
def collapseResult (fin_size fout_size : Nat)
    (jac : List (List (Option Tensor))) : JacResult :=
  if fin_size = 1 ∧ fout_size = 1 then
    .one ((jac.getD 0 []).getD 0 none)
  else if fin_size = 1 ∧ fout_size ≠ 1 then
    .seq ((List.range fout_size).map (fun i => (jac.getD i []).getD 0 none))
  else if fin_size ≠ 1 ∧ fout_size = 1 then
    .seq (jac.getD 0 [])
  else
    .nested jac

/-- Embedding of `paddle.autograd.jacobian(func, inputs, create_graph,
allow_unused)`: validate `inputs`, validate `func(*inputs)`, assemble the
block grid, and collapse the result.  The second component of a successful
result is the ordered trace of engine invocations. -/
def jacobian (E : GradEngine) (func : List Tensor → InOutArg)
    (inputs : InOutArg) (create_graph allow_unused : Bool) :
    Except PErr (JacResult × List GradCall) :=
  match _check_tensors inputs "inputs" with
  | .error e => .error e
  | .ok ins =>
    match _check_tensors (func ins) "outputs" with
    | .error e => .error e
    | .ok outs =>
      match jacobianCore E ins outs create_graph allow_unused with
      | .error e => .error e
      | .ok bc => .ok (collapseResult ins.length outs.length bc.1, bc.2)

/-- Modelled from the spec: `paddle.matmul` of the tensor library, 2-D
case: row-major matrix product of an `[m, k]` and a `[k, n]` tensor. -/
def matmul (a b : Tensor) : Tensor :=
  let m := a.shape.getD 0 0
  let kk := a.shape.getD 1 0
  let n := b.shape.getD 1 0
  ⟨[m, n],
   (List.range m).flatMap (fun i => (List.range n).map (fun j =>
     ((List.range kk).map
       (fun t => a.data.getD (i * kk + t) 0 * b.data.getD (t * n + j) 0)).sum))⟩

/-- The function of documentation example 1: `func(x) = paddle.matmul(x, x)`. -/
def sqFunc (t : Tensor) : Tensor := matmul t t

/-- The input of documentation example 1: `paddle.ones(shape=[2, 2])`. -/
def onesInput : Tensor := ⟨[2, 2], [1, 1, 1, 1]⟩

/-- Add `d` to flat element `idx` of a tensor. -/
def perturb (x : Tensor) (idx : Nat) (d : ℤ) : Tensor :=
  ⟨x.shape, x.data.mapIdx (fun n v => if n = idx then v + d else v)⟩

/-- Central difference of flat output scalar `k` of `f` at `x` in flat input
direction `idx` with unit step; for a function quadratic in its entries this
is exactly the partial derivative. -/
def centralDiff (f : Tensor → Tensor) (x : Tensor) (k idx : Nat) : ℤ :=
  (((f (perturb x idx 1)).data.getD k 0)
    - ((f (perturb x idx (-1))).data.getD k 0)) / 2

/-- Modelled from the spec: the differentiation engine applied to the
computation graph of example 1, returning the exact gradient of
`matmul(x, x)` at `onesInput` (the central difference is exact here because
the function is quadratic in the entries of `x`). -/
def mmEngine : GradEngine :=
  ⟨fun _ _ => true, fun _ k _ idx => centralDiff sqFunc onesInput k idx⟩

/-- The Python callable of example 1 as received by `jacobian` (a bare
tensor is returned, not a tuple). -/
def mmFunc : List Tensor → InOutArg :=
  fun ins => .val (.tensor (sqFunc (ins.getD 0 dTensor)))

/-- The value of one engine row as produced by `engineGradAux` on success:
per input (index offset `j0`) either the gradient tensor or `none`. -/
def gradRowSpec (E : GradEngine) (i k : Nat) : Nat → List Tensor → List (Option Tensor)
  | _, [] => []
  | j, t :: ts =>
    (if E.reach i j then
       some ⟨t.shape, (List.range t.shape.prod).map (E.dval i k j)⟩
     else none) :: gradRowSpec E i k (j + 1) ts

/-- The column of gradient rows collected for the pair (output `i`, input
`j`) across the `m` scalar entries (the list `jac_i[j]` of the source),
after flattening. -/
def colSpec (E : GradEngine) (ins : List Tensor) (i j m : Nat) :
    List (Option Tensor) :=
  (List.range m).map (fun k =>
    if E.reach i j then
      some ⟨[(ins.getD j dTensor).shape.prod],
            (List.range (ins.getD j dTensor).shape.prod).map (E.dval i k j)⟩
    else none)

/-- The ordered list of engine invocations a successful `jacobian` call
makes from output index `i0` on: one per scalar entry of each flattened
output, in order. -/
def callsSpec (ins : List Tensor) (cg au : Bool) : Nat → List Tensor → List GradCall
  | _, [] => []
  | i0, f :: fs =>
    (List.range (pyLen f)).map (fun k => ⟨i0, k, ins, cg, true, au⟩)
      ++ callsSpec ins cg au (i0 + 1) fs

/-- An engine whose graph reaches every input with zero gradients;
used to exercise the theorems on concrete runs. -/
def zeroEngine : GradEngine := ⟨fun _ _ => true, fun _ _ _ _ => 0⟩

/-- An engine in whose graph no input is reachable from any output. -/
def cutEngine : GradEngine := ⟨fun _ _ => false, fun _ _ _ _ => 0⟩

/-- A concrete one-element input tensor. -/
def wIn : Tensor := ⟨[1], [5]⟩

/-- A second concrete one-element input tensor. -/
def wIn2 : Tensor := ⟨[1], [7]⟩

/-- A concrete one-element output tensor. -/
def wOut : Tensor := ⟨[1], [2]⟩

/-- A second concrete one-element output tensor. -/
def wOut2 : Tensor := ⟨[1], [3]⟩

/-- A concrete function returning two outputs, ignoring its inputs. -/
def wFunc2 : List Tensor → InOutArg :=
  fun _ => .list [.tensor wOut, .tensor wOut2]

/-- A concrete function returning one bare-tensor output. -/
def wFunc1 : List Tensor → InOutArg := fun _ => .val (.tensor wOut)

/-- An output tensor with zero scalar elements (shape `[0]`). -/
def emptyOut : Tensor := ⟨[0], []⟩

/-- A concrete function returning a tensor with zero scalar elements. -/
def emptyOutFunc : List Tensor → InOutArg := fun _ => .val (.tensor emptyOut)

/-! Model of the leaky_relu TensorRT conversion test
(`test_trt_convert_leaky_relu.py`). -/

/-- Attribute dictionary of the generated `leaky_relu` op
(`dics[0]` in the source). -/
structure LeakyReluAttrs where
  alpha : ℚ
  use_mkldnn : Bool
  enable_int8 : Bool
  X_scale : ℚ
deriving DecidableEq, Repr

/-- One op entry of `ops_config`. -/
structure LROpConfig where
  op_type : String
  op_inputs : List (String × List String)
  op_outputs : List (String × List String)
  op_attrs : LeakyReluAttrs
deriving DecidableEq, Repr

/-- One generated `ProgramConfig`: the single-op program, its (empty)
weights, the input tensor binding (`generate_input1` yields a float32
all-ones `[1, 3, 64, 64]` array), and the fetched outputs. -/
structure LRProgramConfig where
  ops : List LROpConfig
  weights : List String
  input_names : List String
  input_shape : List Nat
  outputs : List String
deriving DecidableEq, Repr

/-- The alpha values iterated by the outer loop of
`sample_program_configs`. -/
def alphaValues : List ℚ := [0.02, 1.0, 100.0, -1.0, 0.0]

/-- The X_scale values iterated by the inner loop of
`sample_program_configs`. -/
def xScaleValues : List ℚ := [1.0, 100.0, 0.01, -0.1, 0.0]

/-- Embedding of `TrtConvertLeakyReluTest.sample_program_configs`: the
generator enumerated into the list of yielded program configurations, in
yield order. -/
def sample_program_configs : List LRProgramConfig :=
  alphaValues.flatMap (fun alpha => xScaleValues.map (fun xs =>
    { ops := [{ op_type := "leaky_relu",
                op_inputs := [("X", ["input_data"])],
                op_outputs := [("Out", ["y_data"])],
                op_attrs := { alpha := alpha, use_mkldnn := true,
                              enable_int8 := true, X_scale := xs } }],
      weights := [],
      input_names := ["input_data"],
      input_shape := [1, 3, 64, 64],
      outputs := ["y_data"] }))

/-- The three TensorRT precision modes used by the test. -/
inductive PrecisionType where
  | Float32 : PrecisionType
  | Half : PrecisionType
  | Int8 : PrecisionType
deriving DecidableEq, Repr

/-- The dynamic-shape dictionaries held by the test harness state. -/
structure DynamicShapeInfo where
  min_input_shape : List (String × List Nat)
  max_input_shape : List (String × List Nat)
  opt_input_shape : List (String × List Nat)
deriving DecidableEq, Repr

/-- The cleared dynamic-shape state (`clear_dynamic_shape`). -/
def clearedShape : DynamicShapeInfo := ⟨[], [], []⟩

/-- The dynamic-shape state set by `generate_dynamic_shape`. -/
def generatedShape : DynamicShapeInfo :=
  ⟨[("input_data", [1, 3, 32, 32])],
   [("input_data", [4, 3, 64, 64])],
   [("input_data", [4, 3, 64, 64])]⟩

/-- Tolerance yielded with a predictor configuration: a bare scalar or a
pair, as in the source. -/
inductive Tol where
  | scalar : ℚ → Tol
  | pair : ℚ → ℚ → Tol
deriving DecidableEq, Repr

/-- One yielded predictor configuration: the dynamic-shape state in force,
the precision set on `trt_param`, the pair returned by
`generate_trt_nodes_num` and the tolerance. -/
structure PredictorSample where
  shape_state : DynamicShapeInfo
  precision : PrecisionType
  trt_nodes : Nat × Nat
  tol : Tol
deriving DecidableEq, Repr

/-- Embedding of `TrtConvertLeakyReluTest.sample_predictor_configs`: the
generator enumerated into the list of yielded predictor configurations, in
yield order (`generate_trt_nodes_num` returns `(1, 2)` for every attribute
set and shape mode). -/
def sample_predictor_configs (_pc : LRProgramConfig) : List PredictorSample :=
  [⟨clearedShape, .Float32, (1, 2), .scalar 1e-5⟩,
   ⟨clearedShape, .Half, (1, 2), .pair 1e-5 1e-5⟩,
   ⟨clearedShape, .Int8, (1, 2), .pair 1e-5 1e-5⟩,
   ⟨generatedShape, .Float32, (1, 2), .scalar 1e-5⟩,
   ⟨generatedShape, .Half, (1, 2), .pair 1e-5 1e-5⟩,
   ⟨generatedShape, .Int8, (1, 2), .pair 1e-5 1e-5⟩]

/-- The two-input argument used in the concrete runs. -/
def wArg2 : InOutArg := .list [.tensor wIn, .tensor wIn2]

/-- The 1-by-1 zero block produced by `zeroEngine` on one-element pairs. -/
def wB : Option Tensor := some ⟨[1, 1], [0]⟩

/-- Result of `jacobian zeroEngine wFunc2 wArg2 false false`. -/
def wR2 : JacResult := .nested [[wB, wB], [wB, wB]]

/-- Engine-call trace of `jacobian zeroEngine wFunc2 wArg2 false false`. -/
def wLog2 : List GradCall :=
  [⟨0, 0, [wIn, wIn2], false, true, false⟩,
   ⟨1, 0, [wIn, wIn2], false, true, false⟩]

/-- Default op configuration used with `List.getD`. -/
def dOp : LROpConfig := ⟨"", [], [], ⟨0, false, false, 0⟩⟩

/-- Equality of `Except` results is decidable, so concrete runs can be
checked by evaluation. -/
instance {e a : Type} [DecidableEq e] [DecidableEq a] : DecidableEq (Except e a) :=
  fun x y =>
    match x, y with
    | .error u, .error v =>
      decidable_of_iff (u = v) ⟨fun h => by rw [h], fun h => by cases h; rfl⟩
    | .error _, .ok _ => isFalse (fun h => Except.noConfusion h)
    | .ok _, .error _ => isFalse (fun h => Except.noConfusion h)
    | .ok u, .ok v =>
      decidable_of_iff (u = v) ⟨fun h => by rw [h], fun h => by cases h; rfl⟩

/-- Well-formedness of a tensor is decidable. -/
instance (t : Tensor) : Decidable t.wf :=
  inferInstanceAs (Decidable (t.data.length = t.shape.prod))

/-! Lemmas about `mapE`. -/

theorem mapE_ok_length {α β : Type} (f : α → Except PErr β) :
    ∀ {l : List α} {l' : List β}, mapE f l = .ok l' → l'.length = l.length := by
  intro l
  induction l with
  | nil => intro l' h; simp [mapE] at h; simp [← h]
  | cons a t ih =>
    intro l' h
    simp only [mapE] at h
    cases hfa : f a with
    | error e => rw [hfa] at h; exact absurd h (by simp)
    | ok b =>
      rw [hfa] at h
      cases hmt : mapE f t with
      | error e => rw [hmt] at h; exact absurd h (by simp)
      | ok bs =>
        rw [hmt] at h
        cases h
        simp [ih hmt]

theorem mapE_ok_getElem {α β : Type} (f : α → Except PErr β) :
    ∀ {l : List α} {l' : List β}, mapE f l = .ok l' →
      ∀ (i : Nat) (h1 : i < l.length) (h2 : i < l'.length),
        f l[i] = .ok l'[i] := by
  intro l
  induction l with
  | nil => intro l' _ i h1; exact absurd h1 (by simp)
  | cons a t ih =>
    intro l' h i h1 h2
    simp only [mapE] at h
    cases hfa : f a with
    | error e => rw [hfa] at h; exact absurd h (by simp)
    | ok b =>
      rw [hfa] at h
      cases hmt : mapE f t with
      | error e => rw [hmt] at h; exact absurd h (by simp)
      | ok bs =>
        rw [hmt] at h
        cases h
        cases i with
        | zero => simpa using hfa
        | succ n =>
          simp only [List.getElem_cons_succ]
          exact ih hmt n (by simpa using h1) (by simpa using h2)

theorem mapE_ok_getD {α β : Type} (f : α → Except PErr β)
    {l : List α} {l' : List β} (h : mapE f l = .ok l')
    (i : Nat) (hi : i < l.length) (d : α) (d' : β) :
    f (l.getD i d) = .ok (l'.getD i d') := by
  have hlen := mapE_ok_length f h
  have hi' : i < l'.length := hlen ▸ hi
  rw [List.getD_eq_getElem l d hi, List.getD_eq_getElem l' d' hi']
  exact mapE_ok_getElem f h i hi hi'

theorem mapE_error_mem {α β : Type} (f : α → Except PErr β) :
    ∀ {l : List α} {e : PErr}, mapE f l = .error e → ∃ a ∈ l, f a = .error e := by
  intro l
  induction l with
  | nil => intro e h; simp [mapE] at h
  | cons a t ih =>
    intro e h
    simp only [mapE] at h
    cases hfa : f a with
    | error e' =>
      rw [hfa] at h
      cases h
      exact ⟨a, by simp, hfa⟩
    | ok b =>
      rw [hfa] at h
      cases hmt : mapE f t with
      | error e' =>
        rw [hmt] at h
        cases h
        obtain ⟨x, hx, hfx⟩ := ih hmt
        exact ⟨x, by simp [hx], hfx⟩
      | ok bs => rw [hmt] at h; exact absurd h (by simp)

theorem mapE_ok_of_all {α β : Type} (f : α → Except PErr β) :
    ∀ {l : List α}, (∀ a ∈ l, ∃ b, f a = .ok b) →
      ∃ l', mapE f l = .ok l' := by
  intro l
  induction l with
  | nil => intro _; exact ⟨[], rfl⟩
  | cons a t ih =>
    intro hall
    obtain ⟨b, hb⟩ := hall a (by simp)
    obtain ⟨bs, hbs⟩ := ih (fun x hx => hall x (by simp [hx]))
    exact ⟨b :: bs, by simp [mapE, hb, hbs]⟩

theorem mapE_error_head {α β : Type} (f : α → Except PErr β)
    (a : α) (l : List α) {e : PErr} (h : f a = .error e) :
    mapE f (a :: l) = .error e := by
  simp [mapE, h]

theorem mapE_map_snd {α β γ : Type} (f : α → Except PErr (β × γ))
    (g : α → γ) (hg : ∀ a b, f a = .ok b → b.2 = g a) :
    ∀ {l : List α} {l' : List (β × γ)}, mapE f l = .ok l' →
      l'.map Prod.snd = l.map g := by
  intro l
  induction l with
  | nil => intro l' h; simp [mapE] at h; simp [← h]
  | cons a t ih =>
    intro l' h
    simp only [mapE] at h
    cases hfa : f a with
    | error e => rw [hfa] at h; exact absurd h (by simp)
    | ok b =>
      rw [hfa] at h
      cases hmt : mapE f t with
      | error e => rw [hmt] at h; exact absurd h (by simp)
      | ok bs =>
        rw [hmt] at h
        cases h
        simp [ih hmt, hg a b hfa]

/-! Lemmas about the modelled engine call. -/

theorem gradRowSpec_length (E : GradEngine) (i k : Nat) :
    ∀ (j0 : Nat) (ts : List Tensor), (gradRowSpec E i k j0 ts).length = ts.length := by
  intro j0 ts
  induction ts generalizing j0 with
  | nil => rfl
  | cons t ts ih => simp [gradRowSpec, ih]

theorem gradRowSpec_getD (E : GradEngine) (i k : Nat) :
    ∀ (j0 idx : Nat) (ts : List Tensor), idx < ts.length →
      (gradRowSpec E i k j0 ts).getD idx none =
        (if E.reach i (j0 + idx) then
           some ⟨(ts.getD idx dTensor).shape,
                 (List.range (ts.getD idx dTensor).shape.prod).map
                   (E.dval i k (j0 + idx))⟩
         else none) := by
  intro j0 idx ts
  induction ts generalizing j0 idx with
  | nil => intro h; exact absurd h (by simp)
  | cons t ts ih =>
    intro h
    cases idx with
    | zero => simp [gradRowSpec]
    | succ n =>
      have := ih (j0 + 1) n (by simpa using h)
      simpa [gradRowSpec, Nat.add_assoc, Nat.add_comm 1 n] using this

theorem engineGradAux_ok_eq (E : GradEngine) (i k : Nat) (au : Bool) :
    ∀ (j0 : Nat) (ts : List Tensor) (row : List (Option Tensor)),
      engineGradAux E i k au j0 ts = .ok row → row = gradRowSpec E i k j0 ts := by
  intro j0 ts
  induction ts generalizing j0 with
  | nil => intro row h; simp [engineGradAux] at h; simp [← h, gradRowSpec]
  | cons t ts ih =>
    intro row h
    simp only [engineGradAux] at h
    cases hreach : E.reach i (j0) with
    | true =>
      rw [hreach] at h
      simp only [if_true] at h
      cases haux : engineGradAux E i k au (j0 + 1) ts with
      | error e => rw [haux] at h; exact absurd h (by simp)
      | ok rest =>
        rw [haux] at h
        cases h
        simp [gradRowSpec, hreach, ih _ _ haux]
    | false =>
      rw [hreach] at h
      rw [if_neg (by simp)] at h
      cases au with
      | true =>
        rw [if_pos rfl] at h
        cases haux : engineGradAux E i k true (j0 + 1) ts with
        | error e => rw [haux] at h; exact absurd h (by simp)
        | ok rest =>
          rw [haux] at h
          cases h
          simp [gradRowSpec, hreach, ih _ _ haux]
      | false =>
        rw [if_neg (by simp)] at h
        exact Except.noConfusion h

theorem engineGradAux_ok_of (E : GradEngine) (i k : Nat) (au : Bool) :
    ∀ (j0 : Nat) (ts : List Tensor),
      (au = true ∨ ∀ idx, idx < ts.length → E.reach i (j0 + idx) = true) →
      engineGradAux E i k au j0 ts = .ok (gradRowSpec E i k j0 ts) := by
  intro j0 ts
  induction ts generalizing j0 with
  | nil => intro _; rfl
  | cons t ts ih =>
    intro hc
    have htail : au = true ∨ ∀ idx, idx < ts.length → E.reach i (j0 + 1 + idx) = true := by
      rcases hc with h | h
      · exact Or.inl h
      · refine Or.inr fun idx hidx => ?_
        have := h (idx + 1) (by simpa using Nat.succ_lt_succ hidx)
        simpa [Nat.add_assoc, Nat.add_comm 1 idx] using this
    have hrec := ih (j0 + 1) htail
    cases hreach : E.reach i j0 with
    | true =>
      simp only [engineGradAux, hreach, if_pos rfl, hrec]
      simp [gradRowSpec, hreach]
    | false =>
      have hau : au = true := by
        rcases hc with h | h
        · exact h
        · have := h 0 (by simp)
          simp [hreach] at this
      subst hau
      simp [engineGradAux, hreach, hrec, gradRowSpec]

theorem engineGradAux_error_of_unreach (E : GradEngine) (i k : Nat) :
    ∀ (j0 : Nat) (ts : List Tensor),
      (∃ idx, idx < ts.length ∧ E.reach i (j0 + idx) = false) →
      engineGradAux E i k false j0 ts = .error (.engine unreachableMsg) := by
  intro j0 ts
  induction ts generalizing j0 with
  | nil => rintro ⟨idx, hidx, _⟩; exact absurd hidx (by simp)
  | cons t ts ih =>
    rintro ⟨idx, hidx, hreach⟩
    cases hr0 : E.reach i j0 with
    | false =>
      simp only [engineGradAux, hr0]
      rw [if_neg (by simp), if_neg (by simp)]
    | true =>
      have hidx0 : idx ≠ 0 := by
        intro h0
        rw [h0] at hreach
        simp [hr0] at hreach
      obtain ⟨n, rfl⟩ := Nat.exists_eq_succ_of_ne_zero hidx0
      have hrec := ih (j0 + 1)
        ⟨n, by simpa using Nat.lt_of_succ_lt_succ hidx,
          by simpa [Nat.add_assoc, Nat.add_comm 1 n] using hreach⟩
      simp [engineGradAux, hr0, hrec]

theorem engineGradAux_error_msg (E : GradEngine) (i k : Nat) (au : Bool) :
    ∀ (j0 : Nat) (ts : List Tensor) (e : PErr),
      engineGradAux E i k au j0 ts = .error e → e = .engine unreachableMsg := by
  intro j0 ts
  induction ts generalizing j0 with
  | nil => intro e h; exact absurd h (by simp [engineGradAux])
  | cons t ts ih =>
    intro e h
    simp only [engineGradAux] at h
    cases hreach : E.reach i j0 with
    | true =>
      rw [hreach, if_pos rfl] at h
      cases haux : engineGradAux E i k au (j0 + 1) ts with
      | error e' =>
        rw [haux] at h
        cases h
        exact ih _ _ haux
      | ok rest => rw [haux] at h; exact absurd h (by simp)
    | false =>
      rw [hreach, if_neg (by simp)] at h
      cases au with
      | true =>
        rw [if_pos rfl] at h
        cases haux : engineGradAux E i k true (j0 + 1) ts with
        | error e' =>
          rw [haux] at h
          cases h
          exact ih _ _ haux
        | ok rest => rw [haux] at h; exact absurd h (by simp)
      | false =>
        rw [if_neg (by simp)] at h
        cases h
        rfl

/-! Lemmas about `gradStep` and the per-pair columns. -/

theorem gradStep_ok_elim (E : GradEngine) (ins : List Tensor) (i k : Nat)
    (cg au : Bool) (rc : List (Option Tensor) × GradCall)
    (h : gradStep E ins i k cg au = .ok rc) :
    rc.1 = (gradRowSpec E i k 0 ins).map (Option.map reshapeFlat) ∧
      rc.2 = ⟨i, k, ins, cg, true, au⟩ := by
  simp only [gradStep] at h
  cases hg : engineGrad E ins i k au with
  | error e => rw [hg] at h; exact absurd h (by simp)
  | ok row =>
    rw [hg] at h
    cases h
    have := engineGradAux_ok_eq E i k au 0 ins row hg
    simp [this]

theorem gradStep_error_msg (E : GradEngine) (ins : List Tensor) (i k : Nat)
    (cg au : Bool) (e : PErr) (h : gradStep E ins i k cg au = .error e) :
    e = .engine unreachableMsg := by
  simp only [gradStep] at h
  cases hg : engineGrad E ins i k au with
  | error e' =>
    rw [hg] at h
    cases h
    exact engineGradAux_error_msg E i k au 0 ins e hg
  | ok row => rw [hg] at h; exact absurd h (by simp)

theorem gradStep_ok_of (E : GradEngine) (ins : List Tensor) (i k : Nat)
    (cg au : Bool)
    (hc : au = true ∨ ∀ j, j < ins.length → E.reach i j = true) :
    gradStep E ins i k cg au =
      .ok ((gradRowSpec E i k 0 ins).map (Option.map reshapeFlat),
           ⟨i, k, ins, cg, true, au⟩) := by
  have hg : engineGrad E ins i k au = .ok (gradRowSpec E i k 0 ins) := by
    apply engineGradAux_ok_of
    rcases hc with h | h
    · exact Or.inl h
    · exact Or.inr (fun idx hidx => by simpa using h idx hidx)
  simp [gradStep, hg]

theorem col_eq_colSpec (E : GradEngine) (ins : List Tensor) (i : Nat)
    (cg au : Bool) (m : Nat) (pairs : List (List (Option Tensor) × GradCall))
    (hp : mapE (fun k => gradStep E ins i k cg au) (List.range m) = .ok pairs)
    (j : Nat) (hj : j < ins.length) :
    (pairs.map Prod.fst).map (fun r => r.getD j none) = colSpec E ins i j m := by
  have hlen : pairs.length = m := by
    simpa using mapE_ok_length _ hp
  apply List.ext_get
  · simp [colSpec, hlen]
  · intro k h1 h2
    have hk : k < m := by simpa [hlen] using h1
    have hk' : k < pairs.length := by simpa [hlen] using hk
    have hstep := mapE_ok_getElem _ hp k (by simpa using hk) hk'
    rw [List.getElem_range] at hstep
    have hfst := (gradStep_ok_elim E ins i k cg au _ hstep).1
    have hrowlen : (gradRowSpec E i k 0 ins).length = ins.length :=
      gradRowSpec_length E i k 0 ins
    have hjrow : j < ((gradRowSpec E i k 0 ins).map (Option.map reshapeFlat)).length := by
      simpa [hrowlen] using hj
    have hgetD : (pairs[k]).1.getD j none =
        Option.map reshapeFlat ((gradRowSpec E i k 0 ins).getD j none) := by
      rw [hfst]
      rw [List.getD_eq_getElem _ none hjrow, List.getElem_map]
      rw [List.getD_eq_getElem _ none (by simpa [hrowlen] using hj)]
    simp only [List.get_eq_getElem, List.getElem_map]
    rw [hgetD, gradRowSpec_getD E i k 0 j ins hj]
    simp only [colSpec, List.getElem_map, List.getElem_range]
    cases hr : E.reach i j with
    | true =>
      simp [hr, reshapeFlat]
    | false =>
      simp [hr]

theorem allTensors_map_some (l : List Tensor) :
    allTensors (l.map some) = some l := by
  induction l with
  | nil => rfl
  | cons t ts ih => simp [allTensors, ih]

theorem stack_colSpec_false (E : GradEngine) (ins : List Tensor) (i j m : Nat)
    (hm : 0 < m) (hr : E.reach i j = false) :
    _stack_tensor_or_return_none (colSpec E ins i j m) = .ok none := by
  obtain ⟨m', rfl⟩ := Nat.exists_eq_succ_of_ne_zero (Nat.pos_iff_ne_zero.mp hm)
  rw [show colSpec E ins i j (m' + 1) = none ::
      (List.map Nat.succ (List.range m')).map (fun _ => none) by
    simp [colSpec, hr, List.range_succ_eq_map, List.map_map]]
  rfl

theorem paddleStack_cons_some (t0 : Tensor) (rest : List Tensor)
    (hall : ∀ t ∈ rest, t.shape = t0.shape) :
    paddleStack (some t0 :: rest.map some) =
      .ok ⟨(rest.length + 1) :: t0.shape, ((t0 :: rest).map Tensor.data).flatten⟩ := by
  have h1 : allTensors (some t0 :: rest.map some) = some (t0 :: rest) := by
    simp [allTensors, allTensors_map_some]
  have hcond : ∀ t ∈ t0 :: rest, t.shape = t0.shape := by
    intro t ht
    rcases List.mem_cons.mp ht with h | h
    · rw [h]
    · exact hall t h
  simp only [paddleStack, h1]
  rw [if_pos hcond]
  simp

theorem stack_map_some_of_shape (f : Nat → Tensor) (m : Nat) (hm : 0 < m)
    (s : List Nat) (hshape : ∀ k, (f k).shape = s) :
    ∃ M, _stack_tensor_or_return_none (((List.range m).map f).map some) =
        .ok (some M) ∧ M.shape = m :: s := by
  obtain ⟨m', rfl⟩ := Nat.exists_eq_succ_of_ne_zero (Nat.pos_iff_ne_zero.mp hm)
  rw [List.range_succ_eq_map, List.map_cons, List.map_cons]
  have hall : ∀ t ∈ (List.map Nat.succ (List.range m')).map f, t.shape = (f 0).shape := by
    intro t ht
    obtain ⟨k, _, rfl⟩ := List.mem_map.mp ht
    rw [hshape, hshape]
  rw [show _stack_tensor_or_return_none
        (some (f 0) :: ((List.map Nat.succ (List.range m')).map f).map some)
      = (paddleStack
          (some (f 0) :: ((List.map Nat.succ (List.range m')).map f).map some)).map some
      from rfl]
  rw [paddleStack_cons_some _ _ hall]
  refine ⟨_, rfl, ?_⟩
  simp [hshape]

theorem stack_colSpec_true (E : GradEngine) (ins : List Tensor) (i j m : Nat)
    (hm : 0 < m) (hr : E.reach i j = true) :
    ∃ M, _stack_tensor_or_return_none (colSpec E ins i j m) = .ok (some M) ∧
      M.shape = [m, (ins.getD j dTensor).shape.prod] := by
  have hcol : colSpec E ins i j m =
      ((List.range m).map (fun k =>
        (⟨[(ins.getD j dTensor).shape.prod],
          (List.range (ins.getD j dTensor).shape.prod).map (E.dval i k j)⟩ : Tensor))).map some := by
    simp [colSpec, hr, List.map_map, Function.comp]
  rw [hcol]
  exact stack_map_some_of_shape _ m hm _ (fun k => rfl)

/-! Lemmas about `jacOutput`. -/

theorem jacOutput_ok_spec (E : GradEngine) (ins : List Tensor) (cg au : Bool)
    (i : Nat) (flat : Tensor) (blocks : List (Option Tensor))
    (calls : List GradCall)
    (h : jacOutput E ins cg au i flat = .ok (blocks, calls))
    (hq : 0 < ins.length) :
    0 < pyLen flat ∧
    blocks.length = ins.length ∧
    calls = (List.range (pyLen flat)).map
      (fun k => (⟨i, k, ins, cg, true, au⟩ : GradCall)) ∧
    ∀ j, j < ins.length →
      (E.reach i j = false → blocks.getD j none = none) ∧
      (E.reach i j = true → ∃ M, blocks.getD j none = some M ∧
        M.shape = [pyLen flat, (ins.getD j dTensor).shape.prod]) := by
  simp only [jacOutput] at h
  split at h
  · exact absurd h (by simp)
  · rename_i pairs hp
    split at h
    · exact absurd h (by simp)
    · rename_i blocks hb
      cases h
      have hblen : blocks.length = ins.length := by
        simpa using mapE_ok_length _ hb
      have hstack : ∀ (j : Nat) (hj : j < ins.length),
          _stack_tensor_or_return_none (colSpec E ins i j (pyLen flat)) =
            .ok (blocks.getD j none) := by
        intro j hj
        have hj' : j < blocks.length := by simpa [hblen] using hj
        have := mapE_ok_getElem _ hb j (by simpa using hj) hj'
        rw [List.getElem_range] at this
        rw [col_eq_colSpec E ins i cg au (pyLen flat) pairs hp j hj] at this
        rw [List.getD_eq_getElem _ none hj']
        exact this
      have hm : 0 < pyLen flat := by
        rcases Nat.eq_zero_or_pos (pyLen flat) with h0 | h0
        · exfalso
          have := hstack 0 hq
          rw [h0] at this
          simp [colSpec, _stack_tensor_or_return_none] at this
        · exact h0
      refine ⟨hm, hblen, ?_, ?_⟩
      · exact (mapE_map_snd _ _
          (fun a b hab => (gradStep_ok_elim E ins i a cg au b hab).2) hp).symm ▸ rfl
      · intro j hj
        constructor
        · intro hr
          have h1 := hstack j hj
          rw [stack_colSpec_false E ins i j (pyLen flat) hm hr] at h1
          exact (Except.ok.inj h1).symm
        · intro hr
          obtain ⟨M, hM, hMs⟩ := stack_colSpec_true E ins i j (pyLen flat) hm hr
          have h1 := hstack j hj
          rw [hM] at h1
          exact ⟨M, (Except.ok.inj h1).symm, hMs⟩

theorem jacOutput_ok_of (E : GradEngine) (ins : List Tensor) (cg au : Bool)
    (i : Nat) (flat : Tensor) (hm : 0 < pyLen flat)
    (hc : au = true ∨ ∀ j, j < ins.length → E.reach i j = true) :
    ∃ bc, jacOutput E ins cg au i flat = .ok bc := by
  obtain ⟨pairs, hp⟩ := mapE_ok_of_all
    (fun k => gradStep E ins i k cg au)
    (l := List.range (pyLen flat))
    (fun k _ => ⟨_, gradStep_ok_of E ins i k cg au hc⟩)
  obtain ⟨blocks, hb⟩ := mapE_ok_of_all
    (fun j => _stack_tensor_or_return_none
      ((pairs.map Prod.fst).map (fun r => r.getD j none)))
    (l := List.range ins.length)
    (fun j hjmem => by
      have hj : j < ins.length := List.mem_range.mp hjmem
      show ∃ b, _stack_tensor_or_return_none
        ((pairs.map Prod.fst).map (fun r => r.getD j none)) = Except.ok b
      rw [col_eq_colSpec E ins i cg au (pyLen flat) pairs hp j hj]
      cases hr : E.reach i j with
      | false => exact ⟨_, stack_colSpec_false E ins i j (pyLen flat) hm hr⟩
      | true =>
        obtain ⟨M, hM, _⟩ := stack_colSpec_true E ins i j (pyLen flat) hm hr
        exact ⟨_, hM⟩)
  refine ⟨(blocks, pairs.map Prod.snd), ?_⟩
  simp only [jacOutput, hp, hb]

theorem jacOutput_error_of_unreach (E : GradEngine) (ins : List Tensor)
    (cg : Bool) (i : Nat) (flat : Tensor) (hm : 0 < pyLen flat)
    (hex : ∃ j, j < ins.length ∧ E.reach i j = false) :
    jacOutput E ins cg false i flat = .error (.engine unreachableMsg) := by
  have hg : engineGrad E ins i 0 false = .error (.engine unreachableMsg) := by
    apply engineGradAux_error_of_unreach
    obtain ⟨j, hj, hr⟩ := hex
    exact ⟨j, hj, by simpa using hr⟩
  have hstep : gradStep E ins i 0 cg false = .error (.engine unreachableMsg) := by
    simp [gradStep, hg]
  obtain ⟨m', hm'⟩ := Nat.exists_eq_succ_of_ne_zero (Nat.pos_iff_ne_zero.mp hm)
  have hmap : mapE (fun k => gradStep E ins i k cg false)
      (List.range (pyLen flat)) = .error (.engine unreachableMsg) := by
    rw [hm', List.range_succ_eq_map]
    exact mapE_error_head _ 0 _ hstep
  simp [jacOutput, hmap]

theorem paddleStack_error_class (l : List (Option Tensor)) (e : PErr)
    (h : paddleStack l = .error e) : ∃ s, e = .engine s := by
  simp only [paddleStack] at h
  split at h
  · cases h; exact ⟨_, rfl⟩
  · split at h
    · cases h; exact ⟨_, rfl⟩
    · split at h
      · exact absurd h (by simp)
      · cases h; exact ⟨_, rfl⟩

theorem stack_error_class (l : List (Option Tensor)) (e : PErr)
    (h : _stack_tensor_or_return_none l = .error e) :
    e = .assertion "Can not stack an empty list" ∨ ∃ s, e = .engine s := by
  match l with
  | [] =>
    simp only [_stack_tensor_or_return_none] at h
    cases h
    exact Or.inl rfl
  | some t :: r =>
    simp only [_stack_tensor_or_return_none] at h
    cases hps : paddleStack (some t :: r) with
    | error e' =>
      rw [hps] at h
      cases h
      exact Or.inr (paddleStack_error_class _ _ hps)
    | ok v => rw [hps] at h; exact absurd h (by simp [Except.map])
  | none :: r =>
    simp only [_stack_tensor_or_return_none] at h
    exact absurd h (by simp)

theorem jacOutput_error_class (E : GradEngine) (ins : List Tensor)
    (cg au : Bool) (i : Nat) (flat : Tensor) (e : PErr)
    (h : jacOutput E ins cg au i flat = .error e) :
    e = .assertion "Can not stack an empty list" ∨ ∃ s, e = .engine s := by
  simp only [jacOutput] at h
  split at h
  · rename_i e' hp
    cases h
    obtain ⟨k, _, hk⟩ := mapE_error_mem _ hp
    exact Or.inr ⟨_, gradStep_error_msg E ins i k cg au _ hk⟩
  · rename_i pairs hp
    split at h
    · rename_i e' hb
      cases h
      obtain ⟨j, _, hj⟩ := mapE_error_mem _ hb
      exact stack_error_class _ _ hj
    · exact absurd h (by simp)

/-! Lemmas about `coreAux` and `callsSpec`. -/

theorem coreAux_ok_spec (E : GradEngine) (ins : List Tensor) (cg au : Bool) :
    ∀ (fs : List Tensor) (i0 : Nat)
      (res : List (List (Option Tensor) × List GradCall)),
      coreAux E ins cg au i0 fs = .ok res →
      res.length = fs.length ∧
      ∀ idx, idx < fs.length →
        jacOutput E ins cg au (i0 + idx) (fs.getD idx dTensor) =
          .ok (res.getD idx ([], [])) := by
  intro fs
  induction fs with
  | nil =>
    intro i0 res h
    simp only [coreAux] at h
    cases h
    exact ⟨rfl, fun idx hidx => absurd hidx (by simp)⟩
  | cons f fs ih =>
    intro i0 res h
    simp only [coreAux] at h
    split at h
    · exact absurd h (by simp)
    · rename_i bc hbc
      split at h
      · exact absurd h (by simp)
      · rename_i rest hrest
        cases h
        obtain ⟨hlen, hidx⟩ := ih (i0 + 1) rest hrest
        refine ⟨by simp [hlen], ?_⟩
        intro idx hi
        cases idx with
        | zero => simpa using hbc
        | succ n =>
          have := hidx n (by simpa using Nat.lt_of_succ_lt_succ hi)
          simpa [Nat.add_assoc, Nat.add_comm 1 n] using this

theorem coreAux_ok_calls (E : GradEngine) (ins : List Tensor) (cg au : Bool)
    (hq : 0 < ins.length) :
    ∀ (fs : List Tensor) (i0 : Nat)
      (res : List (List (Option Tensor) × List GradCall)),
      coreAux E ins cg au i0 fs = .ok res →
      (res.map Prod.snd).flatten = callsSpec ins cg au i0 fs := by
  intro fs
  induction fs with
  | nil =>
    intro i0 res h
    simp only [coreAux] at h
    cases h
    rfl
  | cons f fs ih =>
    intro i0 res h
    simp only [coreAux] at h
    split at h
    · exact absurd h (by simp)
    · rename_i bc hbc
      split at h
      · exact absurd h (by simp)
      · rename_i rest hrest
        cases h
        have hcalls := (jacOutput_ok_spec E ins cg au i0 f bc.1 bc.2
          (by simpa using hbc) hq).2.2.1
        simp only [List.map_cons, List.flatten_cons, callsSpec]
        rw [← hcalls, ih (i0 + 1) rest hrest]

theorem callsSpec_length (ins : List Tensor) (cg au : Bool) :
    ∀ (fs : List Tensor) (i0 : Nat),
      (callsSpec ins cg au i0 fs).length = (fs.map pyLen).sum := by
  intro fs
  induction fs with
  | nil => intro i0; rfl
  | cons f fs ih =>
    intro i0
    simp [callsSpec, ih (i0 + 1)]

theorem callsSpec_mem (ins : List Tensor) (cg au : Bool) :
    ∀ (fs : List Tensor) (i0 : Nat) (c : GradCall),
      c ∈ callsSpec ins cg au i0 fs →
      c.wrt = ins ∧ c.create_graph = cg ∧ c.retain_graph = true ∧
        c.allow_unused = au := by
  intro fs
  induction fs with
  | nil => intro i0 c h; exact absurd h (by simp [callsSpec])
  | cons f fs ih =>
    intro i0 c h
    rcases List.mem_append.mp h with h1 | h1
    · obtain ⟨k, _, rfl⟩ := List.mem_map.mp h1
      exact ⟨rfl, rfl, rfl, rfl⟩
    · exact ih (i0 + 1) c h1

theorem coreAux_error_of_unreach (E : GradEngine) (ins : List Tensor)
    (cg : Bool) :
    ∀ (fs : List Tensor) (i0 : Nat),
      (∀ f ∈ fs, 0 < pyLen f) →
      (∃ idx, idx < fs.length ∧ ∃ j, j < ins.length ∧
        E.reach (i0 + idx) j = false) →
      coreAux E ins cg false i0 fs = .error (.engine unreachableMsg) := by
  intro fs
  induction fs with
  | nil =>
    intro i0 _ hex
    obtain ⟨idx, hidx, _⟩ := hex
    exact absurd hidx (by simp)
  | cons f fs ih =>
    intro i0 hall hex
    by_cases hex0 : ∃ j, j < ins.length ∧ E.reach i0 j = false
    · have h0 := jacOutput_error_of_unreach E ins cg i0 f
        (hall f (by simp)) hex0
      simp [coreAux, h0]
    · have hreach0 : ∀ j, j < ins.length → E.reach i0 j = true := by
        intro j hj
        cases hr : E.reach i0 j with
        | false => exact absurd ⟨j, hj, hr⟩ hex0
        | true => rfl
      obtain ⟨bc, hbc⟩ := jacOutput_ok_of E ins cg false i0 f
        (hall f (by simp)) (Or.inr hreach0)
      obtain ⟨idx, hidx, j, hj, hr⟩ := hex
      have hidx0 : idx ≠ 0 := by
        intro h0
        rw [h0] at hr
        exact hex0 ⟨j, hj, by simpa using hr⟩
      obtain ⟨n, rfl⟩ := Nat.exists_eq_succ_of_ne_zero hidx0
      have hrec := ih (i0 + 1)
        (fun g hg => hall g (by simp [hg]))
        ⟨n, by simpa using Nat.lt_of_succ_lt_succ hidx,
         j, hj, by simpa [Nat.add_assoc, Nat.add_comm 1 n] using hr⟩
      simp [coreAux, hbc, hrec]

theorem coreAux_error_class (E : GradEngine) (ins : List Tensor)
    (cg au : Bool) :
    ∀ (fs : List Tensor) (i0 : Nat) (e : PErr),
      coreAux E ins cg au i0 fs = .error e →
      e = .assertion "Can not stack an empty list" ∨ ∃ s, e = .engine s := by
  intro fs
  induction fs with
  | nil => intro i0 e h; exact absurd h (by simp [coreAux])
  | cons f fs ih =>
    intro i0 e h
    simp only [coreAux] at h
    split at h
    · rename_i e' hout
      cases h
      exact jacOutput_error_class E ins cg au i0 f _ hout
    · rename_i bc hbc
      split at h
      · rename_i e' hrest
        cases h
        exact ih (i0 + 1) _ hrest
      · exact absurd h (by simp)

/-! Lemmas about `jacobianCore`, `_check_tensors` and `jacobian`. -/

theorem getD_map_lt {α β : Type} (f : α → β) (l : List α) (i : Nat)
    (h : i < l.length) (d : α) (d' : β) :
    (l.map f).getD i d' = f (l.getD i d) := by
  rw [List.getD_eq_getElem _ _ (by simpa using h), List.getElem_map,
    List.getD_eq_getElem _ _ h]

theorem pyLen_reshapeFlat (t : Tensor) : pyLen (reshapeFlat t) = t.data.length := rfl

theorem jacobianCore_ok_spec (E : GradEngine) (ins outs : List Tensor)
    (cg au : Bool) (blocks : List (List (Option Tensor)))
    (log : List GradCall) (hq : 0 < ins.length)
    (h : jacobianCore E ins outs cg au = .ok (blocks, log)) :
    blocks.length = outs.length ∧
    log = callsSpec ins cg au 0 (outs.map reshapeFlat) ∧
    ∀ i, i < outs.length →
      (blocks.getD i []).length = ins.length ∧
      0 < (outs.getD i dTensor).data.length ∧
      ∀ j, j < ins.length →
        (E.reach i j = false → (blocks.getD i []).getD j none = none) ∧
        (E.reach i j = true → ∃ M, (blocks.getD i []).getD j none = some M ∧
          M.shape = [(outs.getD i dTensor).data.length,
                     (ins.getD j dTensor).shape.prod]) := by
  simp only [jacobianCore] at h
  split at h
  · exact absurd h (by simp)
  · rename_i res hres
    have hpair := Except.ok.inj h
    have hb : blocks = res.map Prod.fst := (congrArg Prod.fst hpair).symm
    have hl : log = (res.map Prod.snd).flatten := (congrArg Prod.snd hpair).symm
    obtain ⟨hlen, hidx⟩ := coreAux_ok_spec E ins cg au (outs.map reshapeFlat) 0 res hres
    have hcalls := coreAux_ok_calls E ins cg au hq (outs.map reshapeFlat) 0 res hres
    refine ⟨by simp [hb, hlen], by rw [hl, hcalls], ?_⟩
    intro i hi
    have hi' : i < (outs.map reshapeFlat).length := by simpa using hi
    have hout := hidx i hi'
    rw [getD_map_lt reshapeFlat outs i hi dTensor dTensor] at hout
    have hires : i < res.length := by simpa [hlen] using hi
    have hblk : blocks.getD i [] = (res.getD i ([], [])).1 := by
      rw [hb]
      exact getD_map_lt Prod.fst res i hires ([], []) []
    have hspec := jacOutput_ok_spec E ins cg au (0 + i)
      (reshapeFlat (outs.getD i dTensor))
      (res.getD i ([], [])).1 (res.getD i ([], [])).2
      (by simpa using hout) hq
    rw [pyLen_reshapeFlat] at hspec
    obtain ⟨hm, hblen, _, hj⟩ := hspec
    refine ⟨by rw [hblk]; exact hblen, hm, ?_⟩
    intro j hjq
    have := hj j hjq
    rw [hblk]
    simpa using this

theorem jacobianCore_error_of_unreach (E : GradEngine) (ins outs : List Tensor)
    (cg : Bool) (hm : ∀ t ∈ outs, 0 < t.data.length)
    (hex : ∃ i, i < outs.length ∧ ∃ j, j < ins.length ∧ E.reach i j = false) :
    jacobianCore E ins outs cg false = .error (.engine unreachableMsg) := by
  have hcore : coreAux E ins cg false 0 (outs.map reshapeFlat) =
      .error (.engine unreachableMsg) := by
    apply coreAux_error_of_unreach
    · intro f hf
      obtain ⟨t, ht, rfl⟩ := List.mem_map.mp hf
      rw [pyLen_reshapeFlat]
      exact hm t ht
    · obtain ⟨i, hi, j, hj, hr⟩ := hex
      exact ⟨i, by simpa using hi, j, hj, by simpa using hr⟩
  simp [jacobianCore, hcore]

theorem jacobianCore_error_class (E : GradEngine) (ins outs : List Tensor)
    (cg au : Bool) (e : PErr)
    (h : jacobianCore E ins outs cg au = .error e) :
    e = .assertion "Can not stack an empty list" ∨ ∃ s, e = .engine s := by
  simp only [jacobianCore] at h
  split at h
  · rename_i e' hres
    cases h
    exact coreAux_error_class E ins cg au (outs.map reshapeFlat) 0 _ hres
  · exact absurd h (by simp)

theorem check_ok_pos (arg : InOutArg) (name : String) (l : List Tensor)
    (h : _check_tensors arg name = .ok l) : 0 < l.length := by
  match arg with
  | .pynone => exact absurd h (by simp [_check_tensors])
  | .val (.tensor t) =>
    simp only [_check_tensors] at h
    cases h
    simp
  | .val .other => exact absurd h (by simp [_check_tensors])
  | .list l' =>
    simp only [_check_tensors] at h
    split at h
    · rename_i hpos
      have := mapE_ok_length _ h
      simpa [this] using hpos
    · exact absurd h (by simp)

theorem checkElem_error_msg (name : String) (v : PyVal) (e : PErr)
    (h : checkElem name v = .error e) :
    e = .assertion ("Elements of " ++ name ++ " must be paddle.Tensor") := by
  match v with
  | .tensor t => exact absurd h (by simp [checkElem])
  | .other =>
    simp only [checkElem] at h
    cases h
    rfl

theorem check_error_class (arg : InOutArg) (name : String) (e : PErr)
    (h : _check_tensors arg name = .error e) :
    e = .assertion (name ++ " should not be None") ∨
    e = .assertion (name ++ " connot be empyt") ∨
    e = .assertion ("Elements of " ++ name ++ " must be paddle.Tensor") ∨
    e = .assertion (name ++ " must be Tensor or list of Tensor") := by
  match arg with
  | .pynone =>
    simp only [_check_tensors] at h
    cases h
    exact Or.inl rfl
  | .val (.tensor t) => exact absurd h (by simp [_check_tensors])
  | .val .other =>
    simp only [_check_tensors] at h
    cases h
    exact Or.inr (Or.inr (Or.inr rfl))
  | .list l' =>
    simp only [_check_tensors] at h
    split at h
    · obtain ⟨v, _, hv⟩ := mapE_error_mem _ h
      exact Or.inr (Or.inr (Or.inl (checkElem_error_msg name v e hv)))
    · cases h
      exact Or.inr (Or.inl rfl)

theorem mapE_check_other (name : String) :
    ∀ (l : List PyVal), PyVal.other ∈ l →
      mapE (checkElem name) l =
        .error (.assertion ("Elements of " ++ name ++ " must be paddle.Tensor")) := by
  intro l
  induction l with
  | nil => intro h; exact absurd h (by simp)
  | cons v t ih =>
    intro h
    match v with
    | .other => rfl
    | .tensor x =>
      have ht : PyVal.other ∈ t := by
        rcases List.mem_cons.mp h with h1 | h1
        · exact absurd h1 (by simp)
        · exact h1
      simp only [mapE, checkElem, ih ht]

theorem jacobian_ok_elim (E : GradEngine) (func : List Tensor → InOutArg)
    (arg : InOutArg) (cg au : Bool) (ins outs : List Tensor)
    (r : JacResult) (log : List GradCall)
    (hin : _check_tensors arg "inputs" = .ok ins)
    (hout : _check_tensors (func ins) "outputs" = .ok outs)
    (hj : jacobian E func arg cg au = .ok (r, log)) :
    ∃ blocks, jacobianCore E ins outs cg au = .ok (blocks, log) ∧
      r = collapseResult ins.length outs.length blocks := by
  simp only [jacobian] at hj
  split at hj
  · exact absurd hj (by simp)
  · rename_i ins' hin'
    rw [hin'] at hin
    cases hin
    split at hj
    · exact absurd hj (by simp)
    · rename_i outs' hout'
      rw [hout'] at hout
      cases hout
      split at hj
      · exact absurd hj (by simp)
      · rename_i bc hbc
        cases hj
        exact ⟨bc.1, by simpa using hbc, rfl⟩

/-! Claim theorems. -/

/-- C1: for every successful call of `jacobian` with `p` outputs and `q`
inputs, the result shape follows the collapsing rule: with `p = 1` and
`q = 1` the single block is returned directly; with `q = 1` and `p > 1` an
ordered sequence of `p` per-output blocks; with `p = 1` and `q > 1` an
ordered sequence of `q` per-input blocks; otherwise a sequence of sequences
indexed `[output][input]` with outer length `p` and inner length `q`. -/
theorem jacobian_shape_collapsing (E : GradEngine)
    (func : List Tensor → InOutArg) (arg : InOutArg) (cg au : Bool)
    (ins outs : List Tensor) (r : JacResult) (log : List GradCall)
    (hin : _check_tensors arg "inputs" = .ok ins)
    (hout : _check_tensors (func ins) "outputs" = .ok outs)
    (hj : jacobian E func arg cg au = .ok (r, log)) :
    (ins.length = 1 ∧ outs.length = 1 → ∃ b, r = .one b) ∧
    (ins.length = 1 ∧ outs.length ≠ 1 →
      ∃ l, r = .seq l ∧ l.length = outs.length) ∧
    (ins.length ≠ 1 ∧ outs.length = 1 →
      ∃ l, r = .seq l ∧ l.length = ins.length) ∧
    (ins.length ≠ 1 ∧ outs.length ≠ 1 →
      ∃ g, r = .nested g ∧ g.length = outs.length ∧
        ∀ row ∈ g, row.length = ins.length) := by
  obtain ⟨blocks, hcore, hr⟩ :=
    jacobian_ok_elim E func arg cg au ins outs r log hin hout hj
  have hq : 0 < ins.length := check_ok_pos arg "inputs" ins hin
  have hp : 0 < outs.length := check_ok_pos (func ins) "outputs" outs hout
  obtain ⟨hblen, _, hrows⟩ :=
    jacobianCore_ok_spec E ins outs cg au blocks log hq hcore
  subst hr
  refine ⟨?_, ?_, ?_, ?_⟩
  · rintro ⟨h1, h2⟩
    exact ⟨(blocks.getD 0 []).getD 0 none, by simp [collapseResult, h1, h2]⟩
  · rintro ⟨h1, h2⟩
    refine ⟨(List.range outs.length).map
      (fun i => (blocks.getD i []).getD 0 none), ?_, by simp⟩
    simp [collapseResult, h1, h2]
  · rintro ⟨h1, h2⟩
    refine ⟨blocks.getD 0 [], ?_, (hrows 0 hp).1⟩
    simp [collapseResult, h1, h2]
  · rintro ⟨h1, h2⟩
    refine ⟨blocks, ?_, hblen, ?_⟩
    · simp [collapseResult, h1, h2]
    · intro row hrow
      obtain ⟨i, hi, hrowi⟩ := List.mem_iff_getElem.mp hrow
      have hi' : i < outs.length := by simpa [hblen] using hi
      have := (hrows i hi').1
      rw [List.getD_eq_getElem _ _ hi, hrowi] at this
      exact this

/-- Witness for the shape-collapsing theorem on the concrete two-input,
two-output run of `jacobian` with the zero engine. -/
theorem jacobian_shape_collapsing_witness :
    ([wIn, wIn2].length = 1 ∧ [wOut, wOut2].length = 1 → ∃ b, wR2 = .one b) ∧
    ([wIn, wIn2].length = 1 ∧ [wOut, wOut2].length ≠ 1 →
      ∃ l, wR2 = .seq l ∧ l.length = [wOut, wOut2].length) ∧
    ([wIn, wIn2].length ≠ 1 ∧ [wOut, wOut2].length = 1 →
      ∃ l, wR2 = .seq l ∧ l.length = [wIn, wIn2].length) ∧
    ([wIn, wIn2].length ≠ 1 ∧ [wOut, wOut2].length ≠ 1 →
      ∃ g, wR2 = .nested g ∧ g.length = [wOut, wOut2].length ∧
        ∀ row ∈ g, row.length = [wIn, wIn2].length) :=
  jacobian_shape_collapsing zeroEngine wFunc2 wArg2 false false
    [wIn, wIn2] [wOut, wOut2] wR2 wLog2 (by decide) (by decide) (by decide)

/-- C2: every present Jacobian block for the pair (output `i`, input `j`)
is a matrix of shape `[m_i, n_j]`, where `m_i` is the number of scalar
elements of output `i` and `n_j` the number of scalar elements of input
`j`. -/
theorem jacobian_block_shape (E : GradEngine) (ins outs : List Tensor)
    (cg au : Bool) (blocks : List (List (Option Tensor))) (log : List GradCall)
    (hwout : ∀ t ∈ outs, t.wf)
    (hc : jacobianCore E ins outs cg au = .ok (blocks, log))
    (i j : Nat) (hi : i < outs.length) (hj : j < ins.length)
    (M : Tensor) (hM : (blocks.getD i []).getD j none = some M) :
    M.shape = [(outs.getD i dTensor).numel, (ins.getD j dTensor).numel] := by
  have hq : 0 < ins.length := Nat.lt_of_le_of_lt (Nat.zero_le j) hj
  obtain ⟨_, _, hrows⟩ :=
    jacobianCore_ok_spec E ins outs cg au blocks log hq hc
  obtain ⟨_, _, hjj⟩ := hrows i hi
  obtain ⟨hfalse, htrue⟩ := hjj j hj
  cases hr : E.reach i j with
  | false =>
    rw [hfalse hr] at hM
    exact absurd hM (by simp)
  | true =>
    obtain ⟨M', hM', hMs⟩ := htrue hr
    rw [hM'] at hM
    cases hM
    rw [hMs]
    have hmem : outs.getD i dTensor ∈ outs := by
      rw [List.getD_eq_getElem _ _ hi]
      exact List.getElem_mem hi
    have hwf := hwout _ hmem
    rw [Tensor.wf] at hwf
    show [(outs.getD i dTensor).data.length, (ins.getD j dTensor).shape.prod]
      = [(outs.getD i dTensor).shape.prod, (ins.getD j dTensor).shape.prod]
    rw [hwf]

/-- Witness for the block-shape theorem on the concrete one-input,
one-output run with the zero engine. -/
theorem jacobian_block_shape_witness :
    (⟨[1, 1], [0]⟩ : Tensor).shape =
      [([wOut].getD 0 dTensor).numel, ([wIn].getD 0 dTensor).numel] :=
  jacobian_block_shape zeroEngine [wIn] [wOut] false false
    [[wB]] [⟨0, 0, [wIn], false, true, false⟩] (by decide) (by decide)
    0 0 (by decide) (by decide) ⟨[1, 1], [0]⟩ (by decide)

/-- C3: with `allow_unused=True` an input that is unreachable for a given
output yields `None` at that (output, input) slot of the block grid; with
`allow_unused=False` an unreachable input makes `jacobian` fail with the
error propagated from the differentiation engine. -/
theorem jacobian_allow_unused_spec :
    (∀ (E : GradEngine) (ins outs : List Tensor) (cg : Bool)
      (blocks : List (List (Option Tensor))) (log : List GradCall) (i j : Nat),
      jacobianCore E ins outs cg true = .ok (blocks, log) →
      i < outs.length → j < ins.length → E.reach i j = false →
      (blocks.getD i []).getD j none = none) ∧
    (∀ (E : GradEngine) (func : List Tensor → InOutArg) (arg : InOutArg)
      (cg : Bool) (ins outs : List Tensor) (i j : Nat),
      _check_tensors arg "inputs" = .ok ins →
      _check_tensors (func ins) "outputs" = .ok outs →
      (∀ t ∈ outs, 0 < t.data.length) →
      i < outs.length → j < ins.length → E.reach i j = false →
      jacobian E func arg cg false = .error (.engine unreachableMsg)) := by
  constructor
  · intro E ins outs cg blocks log i j hc hi hj hr
    have hq : 0 < ins.length := Nat.lt_of_le_of_lt (Nat.zero_le j) hj
    obtain ⟨_, _, hrows⟩ :=
      jacobianCore_ok_spec E ins outs cg true blocks log hq hc
    exact ((hrows i hi).2.2 j hj).1 hr
  · intro E func arg cg ins outs i j hin hout hm hi hj hr
    have hcore := jacobianCore_error_of_unreach E ins outs cg hm ⟨i, hi, j, hj, hr⟩
    simp [jacobian, hin, hout, hcore]

/-- Witness for the allow_unused theorem: on the concrete disconnected
engine, `jacobian` with `allow_unused=False` fails with the engine error. -/
theorem jacobian_allow_unused_spec_witness :
    jacobian cutEngine wFunc1 (.val (.tensor wIn)) false false =
      .error (.engine unreachableMsg) :=
  jacobian_allow_unused_spec.2 cutEngine wFunc1 (.val (.tensor wIn)) false
    [wIn] [wOut] 0 0 (by decide) (by decide) (by decide) (by decide)
    (by decide) (by decide)

/-- C4: with unreachable inputs allowed, the block of pair (output `i`,
input `j`) is the absence marker exactly when input `j` does not
participate in computing output `i` (in which case every contributing
gradient row is the marker); when it participates (so the rows are
tensors), the block is a stacked matrix. -/
theorem jacobian_block_absent_iff (E : GradEngine) (ins outs : List Tensor)
    (cg : Bool) (blocks : List (List (Option Tensor))) (log : List GradCall)
    (i j : Nat)
    (hc : jacobianCore E ins outs cg true = .ok (blocks, log))
    (hi : i < outs.length) (hj : j < ins.length) :
    ((blocks.getD i []).getD j none = none ↔ E.reach i j = false) ∧
    (E.reach i j = true → ∃ M, (blocks.getD i []).getD j none = some M) := by
  have hq : 0 < ins.length := Nat.lt_of_le_of_lt (Nat.zero_le j) hj
  obtain ⟨_, _, hrows⟩ :=
    jacobianCore_ok_spec E ins outs cg true blocks log hq hc
  obtain ⟨hfalse, htrue⟩ := (hrows i hi).2.2 j hj
  refine ⟨⟨?_, hfalse⟩, ?_⟩
  · intro hnone
    cases hr : E.reach i j with
    | false => rfl
    | true =>
      obtain ⟨M, hM, _⟩ := htrue hr
      rw [hM] at hnone
      exact absurd hnone (by simp)
  · intro hr
    obtain ⟨M, hM, _⟩ := htrue hr
    exact ⟨M, hM⟩

/-- Witness for the absence-marker theorem on the concrete disconnected
engine with `allow_unused=True`. -/
theorem jacobian_block_absent_iff_witness :
    (([[(none : Option Tensor)]].getD 0 []).getD 0 none = none ↔
      cutEngine.reach 0 0 = false) ∧
    (cutEngine.reach 0 0 = true →
      ∃ M, ([[(none : Option Tensor)]].getD 0 []).getD 0 none = some M) :=
  jacobian_block_absent_iff cutEngine [wIn] [wOut] false [[none]]
    [⟨0, 0, [wIn], false, true, true⟩] 0 0 (by decide) (by decide) (by decide)

/-- Counterexample to C5 as stated: with a non-empty all-tensor input
collection and a non-empty all-tensor output collection, `jacobian` still
raises a local assertion — the empty-stack assertion — when an output
tensor has zero scalar elements, so validation failures are not the only
locally raised errors. -/
theorem jacobian_local_errors_cex :
    jacobian zeroEngine emptyOutFunc (.val (.tensor wIn)) false false =
      .error (.assertion "Can not stack an empty list") ∧
    _check_tensors (.val (.tensor wIn)) "inputs" = .ok [wIn] ∧
    _check_tensors (emptyOutFunc [wIn]) "outputs" = .ok [emptyOut] := by
  decide

/-- C5 (amended): `jacobian` rejects empty input/output collections and
non-tensor elements, and the only errors it raises locally are these
validation assertions together with the empty-stack assertion raised when
an output tensor has zero scalar elements. -/
theorem jacobian_local_errors (E : GradEngine) (func : List Tensor → InOutArg)
    (arg : InOutArg) (cg au : Bool) :
    (arg = .list [] →
      jacobian E func arg cg au = .error (.assertion "inputs connot be empyt")) ∧
    (∀ l, arg = .list l → PyVal.other ∈ l →
      jacobian E func arg cg au =
        .error (.assertion "Elements of inputs must be paddle.Tensor")) ∧
    (∀ ins, _check_tensors arg "inputs" = .ok ins → func ins = .list [] →
      jacobian E func arg cg au = .error (.assertion "outputs connot be empyt")) ∧
    (∀ ins l, _check_tensors arg "inputs" = .ok ins → func ins = .list l →
      PyVal.other ∈ l →
      jacobian E func arg cg au =
        .error (.assertion "Elements of outputs must be paddle.Tensor")) ∧
    (∀ msg, jacobian E func arg cg au = .error (.assertion msg) →
      msg = "inputs should not be None" ∨ msg = "inputs connot be empyt" ∨
      msg = "Elements of inputs must be paddle.Tensor" ∨
      msg = "inputs must be Tensor or list of Tensor" ∨
      msg = "outputs should not be None" ∨ msg = "outputs connot be empyt" ∨
      msg = "Elements of outputs must be paddle.Tensor" ∨
      msg = "outputs must be Tensor or list of Tensor" ∨
      msg = "Can not stack an empty list") := by
  refine ⟨?_, ?_, ?_, ?_, ?_⟩
  · rintro rfl
    have hck : _check_tensors (InOutArg.list []) "inputs" =
        .error (.assertion "inputs connot be empyt") := by decide
    simp [jacobian, hck]
  · rintro l rfl hmem
    have hlen : 0 < l.length := List.length_pos.mpr (List.ne_nil_of_mem hmem)
    have hck : _check_tensors (InOutArg.list l) "inputs" =
        .error (.assertion "Elements of inputs must be paddle.Tensor") := by
      simp only [_check_tensors]
      rw [if_pos hlen, mapE_check_other "inputs" l hmem]
      rfl
    simp [jacobian, hck]
  · rintro ins hin hfl
    have hout : _check_tensors (func ins) "outputs" =
        .error (.assertion "outputs connot be empyt") := by
      rw [hfl]; decide
    simp [jacobian, hin, hout]
  · rintro ins l hin hfl hmem
    have hlen : 0 < l.length := List.length_pos.mpr (List.ne_nil_of_mem hmem)
    have hout : _check_tensors (func ins) "outputs" =
        .error (.assertion "Elements of outputs must be paddle.Tensor") := by
      rw [hfl]
      simp only [_check_tensors]
      rw [if_pos hlen, mapE_check_other "outputs" l hmem]
      rfl
    simp [jacobian, hin, hout]
  · intro msg h
    simp only [jacobian] at h
    split at h
    · rename_i e hin
      cases h
      rcases check_error_class arg "inputs" _ hin with h1 | h1 | h1 | h1
      · exact Or.inl ((PErr.assertion.inj h1).trans rfl)
      · exact Or.inr (Or.inl ((PErr.assertion.inj h1).trans rfl))
      · exact Or.inr (Or.inr (Or.inl ((PErr.assertion.inj h1).trans rfl)))
      · exact Or.inr (Or.inr (Or.inr (Or.inl ((PErr.assertion.inj h1).trans rfl))))
    · rename_i ins hin
      split at h
      · rename_i e hout
        cases h
        rcases check_error_class (func ins) "outputs" _ hout with h1 | h1 | h1 | h1
        · exact Or.inr (Or.inr (Or.inr (Or.inr (Or.inl
            ((PErr.assertion.inj h1).trans rfl)))))
        · exact Or.inr (Or.inr (Or.inr (Or.inr (Or.inr (Or.inl
            ((PErr.assertion.inj h1).trans rfl))))))
        · exact Or.inr (Or.inr (Or.inr (Or.inr (Or.inr (Or.inr (Or.inl
            ((PErr.assertion.inj h1).trans rfl)))))))
        · exact Or.inr (Or.inr (Or.inr (Or.inr (Or.inr (Or.inr (Or.inr (Or.inl
            ((PErr.assertion.inj h1).trans rfl))))))))
      · rename_i outs hout
        split at h
        · rename_i e hcore
          cases h
          rcases jacobianCore_error_class E ins outs cg au _ hcore with h1 | h1
          · exact Or.inr (Or.inr (Or.inr (Or.inr (Or.inr (Or.inr (Or.inr (Or.inr
              (PErr.assertion.inj h1))))))))
          · obtain ⟨s, hs⟩ := h1
            exact absurd hs (by simp)
        · exact absurd h (by simp)

/-- Witness for the amended local-error theorem: the empty input list is
rejected with the empty-collection assertion. -/
theorem jacobian_local_errors_witness :
    jacobian zeroEngine wFunc1 (.list []) false false =
      .error (.assertion "inputs connot be empyt") :=
  (jacobian_local_errors zeroEngine wFunc1 (.list []) false false).1 rfl

/-- C6: a successful `jacobian` call invokes the differentiation engine
exactly once per scalar entry of each flattened output — the sum of the
flattened output sizes — and every invocation differentiates with respect
to the entire input list at once. -/
theorem jacobian_engine_call_count (E : GradEngine)
    (func : List Tensor → InOutArg) (arg : InOutArg) (cg au : Bool)
    (ins outs : List Tensor) (r : JacResult) (log : List GradCall)
    (hin : _check_tensors arg "inputs" = .ok ins)
    (hout : _check_tensors (func ins) "outputs" = .ok outs)
    (hj : jacobian E func arg cg au = .ok (r, log)) :
    log.length = (outs.map (fun t => t.data.length)).sum ∧
    ∀ c ∈ log, c.wrt = ins := by
  obtain ⟨blocks, hcore, _⟩ :=
    jacobian_ok_elim E func arg cg au ins outs r log hin hout hj
  have hq : 0 < ins.length := check_ok_pos arg "inputs" ins hin
  obtain ⟨_, hlog, _⟩ :=
    jacobianCore_ok_spec E ins outs cg au blocks log hq hcore
  constructor
  · rw [hlog, callsSpec_length]
    congr 1
    rw [List.map_map]
    rfl
  · intro c hc
    rw [hlog] at hc
    exact (callsSpec_mem ins cg au (outs.map reshapeFlat) 0 c hc).1

/-- Witness for the call-count theorem: the concrete two-output run makes
exactly two engine invocations. -/
theorem jacobian_engine_call_count_witness :
    wLog2.length = ([wOut, wOut2].map (fun t => t.data.length)).sum :=
  (jacobian_engine_call_count zeroEngine wFunc2 wArg2 false false
    [wIn, wIn2] [wOut, wOut2] wR2 wLog2 (by decide) (by decide) (by decide)).1

/-- C7: for `func(x) = matmul(x, x)` on the 2-by-2 all-ones input,
`jacobian` returns the single 4-by-4 matrix of documentation example 1. -/
theorem jacobian_matmul_example :
    Except.map Prod.fst
      (jacobian mmEngine mmFunc (.val (.tensor onesInput)) false false) =
      .ok (JacResult.one (some ⟨[4, 4],
        [2, 1, 1, 0, 1, 2, 0, 1, 1, 0, 2, 1, 0, 1, 1, 2]⟩)) := by
  decide

/-- C8: a bare tensor argument is normalized to a singleton sequence, both
for the inputs of `jacobian` and for the value returned by `func`. -/
theorem jacobian_bare_tensor_normalization :
    (∀ (E : GradEngine) (func : List Tensor → InOutArg) (x : Tensor)
      (cg au : Bool),
      jacobian E func (.val (.tensor x)) cg au =
        jacobian E func (.list [.tensor x]) cg au) ∧
    (∀ (E : GradEngine) (g : List Tensor → Tensor) (arg : InOutArg)
      (cg au : Bool),
      jacobian E (fun ins => .val (.tensor (g ins))) arg cg au =
        jacobian E (fun ins => .list [.tensor (g ins)]) arg cg au) := by
  constructor
  · intro E func x cg au
    have h1 : _check_tensors (InOutArg.val (.tensor x)) "inputs" = .ok [x] := rfl
    have h2 : _check_tensors (InOutArg.list [.tensor x]) "inputs" = .ok [x] := rfl
    simp only [jacobian, h1, h2]
  · intro E g arg cg au
    cases hc : _check_tensors arg "inputs" with
    | error e => simp [jacobian, hc]
    | ok ins =>
      have h1 : _check_tensors (InOutArg.val (.tensor (g ins))) "outputs" =
        .ok [g ins] := rfl
      have h2 : _check_tensors (InOutArg.list [.tensor (g ins)]) "outputs" =
        .ok [g ins] := rfl
      simp only [jacobian, hc, h1, h2]

/-- C9: the leaky_relu conversion test enumerates exactly 25 program
configurations — one per (alpha, X_scale) pair in the given nested order —
and for each program yields exactly 6 predictor configurations: Float32,
Half and Int8, first under static shape and then under dynamic shape. -/
theorem leaky_relu_enumeration :
    sample_program_configs.length = 25 ∧
    sample_program_configs.map (fun c =>
      ((c.ops.getD 0 dOp).op_attrs.alpha, (c.ops.getD 0 dOp).op_attrs.X_scale)) =
      [(0.02, 1.0), (0.02, 100.0), (0.02, 0.01), (0.02, -0.1), (0.02, 0.0),
       (1.0, 1.0), (1.0, 100.0), (1.0, 0.01), (1.0, -0.1), (1.0, 0.0),
       (100.0, 1.0), (100.0, 100.0), (100.0, 0.01), (100.0, -0.1), (100.0, 0.0),
       (-1.0, 1.0), (-1.0, 100.0), (-1.0, 0.01), (-1.0, -0.1), (-1.0, 0.0),
       (0.0, 1.0), (0.0, 100.0), (0.0, 0.01), (0.0, -0.1), (0.0, 0.0)] ∧
    ∀ pc ∈ sample_program_configs,
      sample_predictor_configs pc =
        [⟨clearedShape, .Float32, (1, 2), .scalar 1e-5⟩,
         ⟨clearedShape, .Half, (1, 2), .pair 1e-5 1e-5⟩,
         ⟨clearedShape, .Int8, (1, 2), .pair 1e-5 1e-5⟩,
         ⟨generatedShape, .Float32, (1, 2), .scalar 1e-5⟩,
         ⟨generatedShape, .Half, (1, 2), .pair 1e-5 1e-5⟩,
         ⟨generatedShape, .Int8, (1, 2), .pair 1e-5 1e-5⟩] := by
  refine ⟨rfl, rfl, ?_⟩
  intro pc _
  rfl

/-- Witness for the enumeration theorem at the first generated program
configuration. -/
theorem leaky_relu_enumeration_witness :
    sample_predictor_configs (sample_program_configs.getD 0
      { ops := [], weights := [], input_names := [], input_shape := [],
        outputs := [] }) =
      [⟨clearedShape, .Float32, (1, 2), .scalar 1e-5⟩,
       ⟨clearedShape, .Half, (1, 2), .pair 1e-5 1e-5⟩,
       ⟨clearedShape, .Int8, (1, 2), .pair 1e-5 1e-5⟩,
       ⟨generatedShape, .Float32, (1, 2), .scalar 1e-5⟩,
       ⟨generatedShape, .Half, (1, 2), .pair 1e-5 1e-5⟩,
       ⟨generatedShape, .Int8, (1, 2), .pair 1e-5 1e-5⟩] :=
  leaky_relu_enumeration.2.2 _ (by
    rw [List.getD_eq_getElem _ _ (by rw [leaky_relu_enumeration.1]; decide)]
    exact List.getElem_mem _)

/-- C10: every engine invocation of one `jacobian` call passes
`retain_graph=True` and forwards the `create_graph` and `allow_unused`
arguments unchanged. -/
theorem jacobian_grad_flags (E : GradEngine)
    (func : List Tensor → InOutArg) (arg : InOutArg) (cg au : Bool)
    (ins outs : List Tensor) (r : JacResult) (log : List GradCall)
    (hin : _check_tensors arg "inputs" = .ok ins)
    (hout : _check_tensors (func ins) "outputs" = .ok outs)
    (hj : jacobian E func arg cg au = .ok (r, log)) :
    ∀ c ∈ log, c.retain_graph = true ∧ c.create_graph = cg ∧
      c.allow_unused = au := by
  obtain ⟨blocks, hcore, _⟩ :=
    jacobian_ok_elim E func arg cg au ins outs r log hin hout hj
  have hq : 0 < ins.length := check_ok_pos arg "inputs" ins hin
  obtain ⟨_, hlog, _⟩ :=
    jacobianCore_ok_spec E ins outs cg au blocks log hq hcore
  intro c hc
  rw [hlog] at hc
  obtain ⟨_, h2, h3, h4⟩ := callsSpec_mem ins cg au (outs.map reshapeFlat) 0 c hc
  exact ⟨h3, h2, h4⟩

/-- Witness for the flag-forwarding theorem at the first recorded call of
the concrete run. -/
theorem jacobian_grad_flags_witness :
    GradCall.retain_graph ⟨0, 0, [wIn, wIn2], false, true, false⟩ = true ∧
    GradCall.create_graph ⟨0, 0, [wIn, wIn2], false, true, false⟩ = false ∧
    GradCall.allow_unused ⟨0, 0, [wIn, wIn2], false, true, false⟩ = false :=
  jacobian_grad_flags zeroEngine wFunc2 wArg2 false false
    [wIn, wIn2] [wOut, wOut2] wR2 wLog2 (by decide) (by decide) (by decide)
    ⟨0, 0, [wIn, wIn2], false, true, false⟩ (by decide)
